import Mathlib

/-!
# Verification of the webmux terminal-streaming core

Shallow embedding of the Rust backend (`src/backend-rust/src`) of webmux:

* `Utf8StreamDecoder::decode_chunk`  (terminal_buffer.rs)
* `TerminalRingBuffer` / `TerminalReader` chunk sequencer (terminal_buffer.rs)
* `OptimizedTerminalBuffer` ring buffer (buffer/mod.rs)
* `TerminalDeltaTracker::compute_delta` (terminal_delta.rs)
* `capture_loop` and `input_processor_loop` (websocket/optimized_session_manager.rs)
* `OptimizedClientManager::send_to_client` (websocket/optimized.rs)

Bytes are modelled as `Nat` (values < 256 where it matters), `Vec<u8>`/`Bytes`
as `List Nat`, Rust `String` results as the list of their UTF-8 bytes
(`push_str` is list append).  `usize`/`u64` arithmetic in this code never
overflows on the inputs considered, and Rust's `saturating_sub` is exactly
`Nat` subtraction.
-/

namespace Webmux

/-! ## UTF-8 validation (semantics of `std::str::from_utf8` / `simdutf8`)

`simdutf8::basic::from_utf8` succeeds exactly when the whole slice is valid
UTF-8; `std::str::from_utf8`'s error yields `valid_up_to`, the length of the
longest prefix that is a sequence of complete well-formed UTF-8 characters.
The byte-class table below is UTF-8 as accepted by Rust (RFC 3629: no
surrogates, max U+10FFFF, no overlongs). -/

/-- Number of bytes of the UTF-8 character introduced by lead byte `b`,
`0` if `b` is not a valid lead byte. -/
def charLen (b : Nat) : Nat :=
  if b ≤ 0x7F then 1
  else if 0xC2 ≤ b ∧ b ≤ 0xDF then 2
  else if 0xE0 ≤ b ∧ b ≤ 0xEF then 3
  else if 0xF0 ≤ b ∧ b ≤ 0xF4 then 4
  else 0

/-- A plain continuation byte: `0x80 ≤ b ≤ 0xBF`. -/
def isCont (b : Nat) : Bool := decide (0x80 ≤ b ∧ b ≤ 0xBF)

/-- Lower bound for the first continuation byte after lead `b`
(tightened for `0xE0` and `0xF0` to exclude overlong encodings). -/
def firstContLo (b : Nat) : Nat :=
  if b = 0xE0 then 0xA0 else if b = 0xF0 then 0x90 else 0x80

/-- Upper bound for the first continuation byte after lead `b`
(tightened for `0xED` to exclude surrogates and `0xF4` to cap at U+10FFFF). -/
def firstContHi (b : Nat) : Nat :=
  if b = 0xED then 0x9F else if b = 0xF4 then 0x8F else 0xBF

/-- The continuation bytes `cs` are acceptable after lead byte `b`. -/
def contBytesOk (b : Nat) (cs : List Nat) : Bool :=
  match cs with
  | [] => true
  | c :: rest => (decide (firstContLo b ≤ c ∧ c ≤ firstContHi b)) && rest.all isCont

/-- If `l` starts with a complete well-formed UTF-8 character, its byte
length (`1`–`4`); otherwise `none`. -/
def utf8FirstChar (l : List Nat) : Option Nat :=
  match l with
  | [] => none
  | b :: rest =>
    if charLen b = 0 then none
    else if charLen b - 1 ≤ rest.length ∧ contBytesOk b (rest.take (charLen b - 1))
    then some (charLen b)
    else none

/-- Fuelled scanner for `valid_up_to`; fuel `≥ l.length` suffices. -/
def validUpToFuel : Nat → List Nat → Nat
  | 0, _ => 0
  | fuel + 1, l =>
    match utf8FirstChar l with
    | none => 0
    | some n => n + validUpToFuel fuel (l.drop n)

/-- `valid_up_to` of `std::str::Utf8Error`: length of the longest prefix of
`l` consisting of complete well-formed UTF-8 characters. -/
def validUpTo (l : List Nat) : Nat := validUpToFuel l.length l

/-- `l` is entirely valid UTF-8 (the `Ok` case of `from_utf8`). -/
def utf8Valid (l : List Nat) : Prop := validUpTo l = l.length

instance (l : List Nat) : Decidable (utf8Valid l) := by
  unfold utf8Valid; infer_instance

/-! ## `Utf8StreamDecoder` (terminal_buffer.rs, lines 146–234) -/

/-- `Utf8StreamDecoder { incomplete: Vec<u8> }`. -/
structure DecoderState where
  incomplete : List Nat
deriving DecidableEq

/-- `Utf8StreamDecoder::new()`. -/
def DecoderState.new : DecoderState := ⟨[]⟩

/-- Result of `decode_chunk`: the pushed string (as UTF-8 bytes), the
`processed` count, and the updated decoder state. -/
structure DecodeResult where
  output : List Nat
  processed : Nat
  state : DecoderState
deriving DecidableEq

/-- Phase 1 of `decode_chunk`: handle incomplete bytes from the previous
chunk (lines 162–196).  Returns (pushed output, `processed`, incomplete). -/
def decodeIncomplete (incomplete input : List Nat) : List Nat × Nat × List Nat :=
  if incomplete = [] then ([], 0, incomplete)
  else
    let combined := incomplete ++ input.take (min input.length 4)
    if utf8Valid combined then
      (combined, combined.length - incomplete.length, [])
    else
      let v := validUpTo combined
      if 0 < v then
        (combined.take v, v - incomplete.length, [])
      else
        ([], 0, incomplete)

/-- Phase 2 of `decode_chunk`: process the main input (lines 198–230).
Takes the incomplete list and `processed` left by phase 1; returns
(pushed output, final `processed`, final incomplete). -/
def decodeMain (incomplete1 input : List Nat) (processed1 : Nat) :
    List Nat × Nat × List Nat :=
  let remaining := input.drop processed1
  if utf8Valid remaining then
    (remaining, input.length, incomplete1)
  else
    let v := validUpTo remaining
    let incompleteStart := processed1 + v
    let inc2 := if incompleteStart < input.length then input.drop incompleteStart
                else incomplete1
    (remaining.take v, input.length, inc2)

/-- `Utf8StreamDecoder::decode_chunk` (lines 158–233). -/
def decode_chunk (st : DecoderState) (input : List Nat) : DecodeResult :=
  let r1 := decodeIncomplete st.incomplete input
  let r2 := decodeMain r1.2.2 input r1.2.1
  ⟨r1.1 ++ r2.1, r2.2.1, ⟨r2.2.2⟩⟩

example : validUpTo [0x61, 0xC3, 0xA9] = 3 := by decide
example : validUpTo [0x61, 0xC3] = 1 := by decide
example : validUpTo [0xF0, 0x90, 0x80, 0x80] = 4 := by decide
example : validUpTo [0xED, 0xA0, 0x80] = 0 := by decide
example : decode_chunk DecoderState.new [0x61, 0xC3] =
    ⟨[0x61], 2, ⟨[0xC3]⟩⟩ := by decide
example : decode_chunk ⟨[0xC3]⟩ [0xA9, 0x62] =
    ⟨[0xC3, 0xA9, 0x62], 2, ⟨[]⟩⟩ := by decide

/-! ### Structural lemmas about UTF-8 validation -/

theorem charLen_le_four (b : Nat) : charLen b ≤ 4 := by
  unfold charLen; split_ifs <;> omega

theorem utf8FirstChar_bounds {l : List Nat} {n : Nat}
    (h : utf8FirstChar l = some n) : 0 < n ∧ n ≤ 4 ∧ n ≤ l.length := by
  match l with
  | [] => simp [utf8FirstChar] at h
  | b :: rest =>
    have h4 := charLen_le_four b
    simp only [utf8FirstChar] at h
    split_ifs at h with h0 h1
    · cases h
      refine ⟨by omega, h4, ?_⟩
      have := h1.1
      simp only [List.length_cons]
      omega

theorem utf8FirstChar_append {l : List Nat} {n : Nat} (ys : List Nat)
    (h : utf8FirstChar l = some n) : utf8FirstChar (l ++ ys) = some n := by
  match l with
  | [] => simp [utf8FirstChar] at h
  | b :: rest =>
    simp only [utf8FirstChar, List.cons_append] at h ⊢
    split_ifs at h with h0 h1
    · cases h
      rw [if_neg h0, if_pos]
      refine ⟨?_, ?_⟩
      · rw [List.length_append]; omega
      · rw [List.take_append_of_le_length h1.1]; exact h1.2

theorem utf8FirstChar_append_rev {l ys : List Nat} {n : Nat}
    (h : utf8FirstChar (l ++ ys) = some n) (hn : n ≤ l.length) :
    utf8FirstChar l = some n := by
  match l with
  | [] =>
    have := utf8FirstChar_bounds h
    simp at hn; omega
  | b :: rest =>
    simp only [utf8FirstChar, List.cons_append] at h ⊢
    split_ifs at h with h0 h1
    · cases h
      have hle : charLen b - 1 ≤ rest.length := by
        simp only [List.length_cons] at hn; omega
      rw [if_neg h0, if_pos]
      refine ⟨hle, ?_⟩
      rw [List.take_append_of_le_length hle] at h1
      exact h1.2

theorem utf8FirstChar_take {l : List Nat} {n : Nat} (j : Nat)
    (h : utf8FirstChar l = some n) (hj : n ≤ j) :
    utf8FirstChar (l.take j) = some n := by
  have hb := utf8FirstChar_bounds h
  apply @utf8FirstChar_append_rev (l.take j) (l.drop j) n
  · rw [List.take_append_drop]; exact h
  · rw [List.length_take]; omega

theorem validUpToFuel_congr : ∀ (f₁ f₂ : Nat) (l : List Nat),
    l.length ≤ f₁ → l.length ≤ f₂ → validUpToFuel f₁ l = validUpToFuel f₂ l
  | 0, f₂, l, h₁, _ => by
    have : l = [] := List.eq_nil_of_length_eq_zero (Nat.le_zero.mp h₁)
    subst this
    cases f₂ <;> simp [validUpToFuel, utf8FirstChar]
  | f₁ + 1, 0, l, _, h₂ => by
    have : l = [] := List.eq_nil_of_length_eq_zero (Nat.le_zero.mp h₂)
    subst this
    simp [validUpToFuel, utf8FirstChar]
  | f₁ + 1, f₂ + 1, l, h₁, h₂ => by
    cases hc : utf8FirstChar l with
    | none => simp only [validUpToFuel, hc]
    | some n =>
      have hb := utf8FirstChar_bounds hc
      have hrec := validUpToFuel_congr f₁ f₂ (l.drop n)
        (by simp only [List.length_drop]; omega)
        (by simp only [List.length_drop]; omega)
      simp only [validUpToFuel, hc, hrec]

theorem validUpTo_none {l : List Nat} (h : utf8FirstChar l = none) :
    validUpTo l = 0 := by
  unfold validUpTo
  cases l with
  | nil => rfl
  | cons b rest => simp only [List.length_cons, validUpToFuel, h]

theorem validUpTo_some {l : List Nat} {n : Nat} (h : utf8FirstChar l = some n) :
    validUpTo l = n + validUpTo (l.drop n) := by
  have hb := utf8FirstChar_bounds h
  unfold validUpTo
  cases l with
  | nil => simp [utf8FirstChar] at h
  | cons b rest =>
    simp only [List.length_cons, validUpToFuel, h]
    congr 1
    apply validUpToFuel_congr
    · simp only [List.length_drop, List.length_cons] at hb ⊢; omega
    · exact le_rfl

theorem validUpTo_le_aux : ∀ (k : Nat) (l : List Nat),
    l.length ≤ k → validUpTo l ≤ l.length
  | 0, l, h => by
    have : l = [] := List.eq_nil_of_length_eq_zero (Nat.le_zero.mp h)
    subst this; simp [validUpTo, validUpToFuel]
  | k + 1, l, h => by
    cases hc : utf8FirstChar l with
    | none => rw [validUpTo_none hc]; omega
    | some n =>
      have hb := utf8FirstChar_bounds hc
      rw [validUpTo_some hc]
      have hrec := validUpTo_le_aux k (l.drop n)
        (by simp only [List.length_drop]; omega)
      simp only [List.length_drop] at hrec
      omega

theorem validUpTo_le (l : List Nat) : validUpTo l ≤ l.length :=
  validUpTo_le_aux l.length l le_rfl

theorem utf8Valid_nil : utf8Valid [] := by decide

theorem utf8Valid_firstChar {l : List Nat} (h : utf8Valid l) (hne : l ≠ []) :
    ∃ n, utf8FirstChar l = some n := by
  cases hc : utf8FirstChar l with
  | some n => exact ⟨n, rfl⟩
  | none =>
    unfold utf8Valid at h
    rw [validUpTo_none hc] at h
    exact absurd (List.eq_nil_of_length_eq_zero h.symm) hne

theorem validUpTo_append_aux : ∀ (k : Nat) (a b : List Nat), a.length ≤ k →
    utf8Valid a → validUpTo (a ++ b) = a.length + validUpTo b
  | 0, a, b, hk, _ => by
    have : a = [] := List.eq_nil_of_length_eq_zero (Nat.le_zero.mp hk)
    subst this; simp
  | k + 1, a, b, hk, ha => by
    by_cases hne : a = []
    · subst hne; simp
    · obtain ⟨n, hc⟩ := utf8Valid_firstChar ha hne
      have hb := utf8FirstChar_bounds hc
      have hav := ha
      unfold utf8Valid at hav
      rw [validUpTo_some hc] at hav
      have hdropv : utf8Valid (a.drop n) := by
        unfold utf8Valid
        simp only [List.length_drop]
        omega
      rw [validUpTo_some (utf8FirstChar_append b hc),
          List.drop_append_of_le_length hb.2.2,
          validUpTo_append_aux k (a.drop n) b
            (by simp only [List.length_drop]; omega) hdropv]
      simp only [List.length_drop]
      omega

theorem validUpTo_append {a b : List Nat} (ha : utf8Valid a) :
    validUpTo (a ++ b) = a.length + validUpTo b :=
  validUpTo_append_aux a.length a b le_rfl ha

theorem utf8Valid_append {a b : List Nat} (ha : utf8Valid a) (hb : utf8Valid b) :
    utf8Valid (a ++ b) := by
  unfold utf8Valid at *
  rw [validUpTo_append ha, List.length_append, hb]

theorem utf8Valid_of_append_right {a b : List Nat} (ha : utf8Valid a)
    (hab : utf8Valid (a ++ b)) : utf8Valid b := by
  unfold utf8Valid at *
  rw [validUpTo_append ha, List.length_append] at hab
  omega

theorem utf8Valid_take_validUpTo_aux : ∀ (k : Nat) (l : List Nat),
    l.length ≤ k → utf8Valid (l.take (validUpTo l))
  | 0, l, h => by
    have : l = [] := List.eq_nil_of_length_eq_zero (Nat.le_zero.mp h)
    subst this; simpa using utf8Valid_nil
  | k + 1, l, h => by
    cases hc : utf8FirstChar l with
    | none => rw [validUpTo_none hc]; simpa using utf8Valid_nil
    | some n =>
      have hb := utf8FirstChar_bounds hc
      rw [validUpTo_some hc, List.take_add]
      apply utf8Valid_append
      · have hcc := utf8FirstChar_take n hc le_rfl
        have hlen : (l.take n).length = n := by
          rw [List.length_take]; omega
        unfold utf8Valid
        rw [validUpTo_some hcc, List.drop_eq_nil_of_le (le_of_eq hlen), hlen]
        rfl
      · exact utf8Valid_take_validUpTo_aux k (l.drop n)
          (by simp only [List.length_drop]; omega)

theorem utf8Valid_take_validUpTo (l : List Nat) : utf8Valid (l.take (validUpTo l)) :=
  utf8Valid_take_validUpTo_aux l.length l le_rfl

theorem utf8FirstChar_at_stop_aux : ∀ (k : Nat) (l : List Nat), l.length ≤ k →
    validUpTo l < l.length → utf8FirstChar (l.drop (validUpTo l)) = none
  | 0, l, hk, hlt => by omega
  | k + 1, l, hk, hlt => by
    cases hc : utf8FirstChar l with
    | none => rw [validUpTo_none hc]; simpa using hc
    | some n =>
      have hb := utf8FirstChar_bounds hc
      rw [validUpTo_some hc] at hlt ⊢
      rw [← List.drop_drop]
      apply utf8FirstChar_at_stop_aux k (l.drop n)
        (by simp only [List.length_drop]; omega)
      simp only [List.length_drop]
      omega

theorem utf8FirstChar_at_stop {l : List Nat} (hlt : validUpTo l < l.length) :
    utf8FirstChar (l.drop (validUpTo l)) = none :=
  utf8FirstChar_at_stop_aux l.length l le_rfl hlt

/-! ### Behaviour of `decode_chunk` -/

/-- A call on a fresh (or fully drained) decoder emits the longest valid
prefix and saves the rest as incomplete. -/
theorem decode_chunk_fresh (p : List Nat) :
    decode_chunk ⟨[]⟩ p =
      ⟨p.take (validUpTo p), p.length, ⟨p.drop (validUpTo p)⟩⟩ := by
  have h1 : decodeIncomplete [] p = ([], 0, []) := by
    simp [decodeIncomplete]
  have h2 : decodeMain [] p 0 = (p.take (validUpTo p), p.length, p.drop (validUpTo p)) := by
    unfold decodeMain
    simp only [List.drop_zero, Nat.zero_add]
    by_cases hv : utf8Valid p
    · rw [if_pos hv, show validUpTo p = p.length from hv, List.take_length,
        List.drop_length]
    · have hlt : validUpTo p < p.length :=
        lt_of_le_of_ne (validUpTo_le p) (fun h => hv h)
      rw [if_neg hv, if_pos hlt]
  simp only [decode_chunk, h1, h2, List.nil_append]

/-- Decoding an entirely valid chunk on a fresh decoder emits it whole. -/
theorem decode_chunk_valid {p : List Nat} (hv : utf8Valid p) :
    decode_chunk ⟨[]⟩ p = ⟨p, p.length, ⟨[]⟩⟩ := by
  rw [decode_chunk_fresh, show validUpTo p = p.length from hv,
    List.take_length, List.drop_length]

/-- Resuming with a saved incomplete tail `inc` (at which validation
stopped) emits exactly `inc ++ s` when `inc ++ s` is valid UTF-8. -/
theorem decode_chunk_resume (inc s : List Nat)
    (hne : inc ≠ [])
    (hstop : utf8FirstChar inc = none)
    (hvalid : utf8Valid (inc ++ s)) :
    (decode_chunk ⟨inc⟩ s).output = inc ++ s := by
  obtain ⟨m, hm⟩ := utf8Valid_firstChar hvalid (by simp [hne])
  have hmb := utf8FirstChar_bounds hm
  have hmk : inc.length < m := by
    by_contra h'
    push_neg at h'
    rw [utf8FirstChar_append_rev hm h'] at hstop
    cases hstop
  have hlen_app : (inc ++ s).length = inc.length + s.length := List.length_append ..
  -- the 4-byte window taken from the new input
  set w := min s.length 4 with hw
  have hw_le : w ≤ s.length := Nat.min_le_left ..
  have hcomb_eq : inc ++ s.take w = (inc ++ s).take (inc.length + w) :=
    (List.take_append w).symm
  have hcomb_first : utf8FirstChar (inc ++ s.take w) = some m := by
    rw [hcomb_eq]
    exact utf8FirstChar_take _ hm (by omega)
  have hcomb_len : (inc ++ s.take w).length = inc.length + w := by
    rw [List.length_append, List.length_take]
    omega
  have hv2_ge : m ≤ validUpTo (inc ++ s.take w) := by
    rw [validUpTo_some hcomb_first]; omega
  by_cases hcv : utf8Valid (inc ++ s.take w)
  · -- phase 1 consumed the whole 4-byte window
    have hs_valid : utf8Valid (s.drop w) := by
      apply utf8Valid_of_append_right hcv
      rw [List.append_assoc, List.take_append_drop]
      exact hvalid
    have h1 : decodeIncomplete inc s = (inc ++ s.take w, w, []) := by
      unfold decodeIncomplete
      rw [if_neg hne, if_pos hcv, hcomb_len, Nat.add_sub_cancel_left]
    have h2 : decodeMain [] s w = (s.drop w, s.length, []) := by
      unfold decodeMain
      rw [if_pos hs_valid]
    simp only [decode_chunk, h1, h2]
    rw [List.append_assoc, List.take_append_drop]
  · -- phase 1 emitted the valid prefix of the window
    set v2 := validUpTo (inc ++ s.take w) with hv2
    have hv2_lt : v2 < inc.length + w := by
      rw [← hcomb_len]
      exact lt_of_le_of_ne (validUpTo_le _) (fun h => hcv h)
    have htake_v2 : (inc ++ s.take w).take v2 = inc ++ s.take (v2 - inc.length) := by
      rw [List.take_append_eq_append_take, List.take_of_length_le (by omega),
        List.take_take]
      congr 2
      omega
    have hpref_valid : utf8Valid (inc ++ s.take (v2 - inc.length)) := by
      rw [← htake_v2, hv2]
      exact utf8Valid_take_validUpTo _
    have hs_valid : utf8Valid (s.drop (v2 - inc.length)) := by
      apply utf8Valid_of_append_right hpref_valid
      rw [List.append_assoc, List.take_append_drop]
      exact hvalid
    have h1 : decodeIncomplete inc s =
        ((inc ++ s.take w).take v2, v2 - inc.length, []) := by
      unfold decodeIncomplete
      rw [if_neg hne, if_neg hcv, if_pos (by omega : 0 < validUpTo (inc ++ s.take w))]
    have h2 : decodeMain [] s (v2 - inc.length) =
        (s.drop (v2 - inc.length), s.length, []) := by
      unfold decodeMain
      rw [if_pos hs_valid]
    simp only [decode_chunk, h1, h2, htake_v2]
    rw [List.append_assoc, List.take_append_drop]

/-- C1 (claim): splitting any valid UTF-8 byte sequence at any offset across
two `decode_chunk` calls on a fresh decoder yields outputs whose
concatenation equals decoding the whole sequence in one call (which emits
the sequence itself): no corruption, loss or duplication at the boundary. -/
theorem decode_chunk_split (bytes : List Nat) (i : Nat)
    (hvalid : utf8Valid bytes) (hi : i ≤ bytes.length) :
    (decode_chunk ⟨[]⟩ (bytes.take i)).output ++
        (decode_chunk (decode_chunk ⟨[]⟩ (bytes.take i)).state
          (bytes.drop i)).output =
      (decode_chunk ⟨[]⟩ bytes).output := by
  rw [decode_chunk_valid hvalid]
  set p := bytes.take i with hp
  set s := bytes.drop i with hs
  have hps : p ++ s = bytes := List.take_append_drop i bytes
  set v := validUpTo p with hv
  rw [decode_chunk_fresh p]
  show p.take v ++ (decode_chunk ⟨p.drop v⟩ s).output = bytes
  have hptake_valid : utf8Valid (p.take v) := utf8Valid_take_validUpTo p
  by_cases hinc : p.drop v = []
  · -- the split fell on a character boundary: phase 1 of call 2 is skipped
    have hvp : v = p.length := by
      have := List.drop_eq_nil_iff.mp hinc
      have := validUpTo_le p
      omega
    have hp_valid : utf8Valid p := by
      show validUpTo p = p.length
      omega
    have hs_valid : utf8Valid s := by
      apply utf8Valid_of_append_right hp_valid
      rw [hps]; exact hvalid
    rw [hinc, decode_chunk_valid hs_valid]
    show p.take v ++ s = bytes
    rw [hvp, List.take_length, hps]
  · -- a multi-byte character straddles the split
    have hlt : v < p.length := by
      have := List.drop_eq_nil_iff.not.mp hinc
      have := validUpTo_le p
      omega
    have hstop : utf8FirstChar (p.drop v) = none := utf8FirstChar_at_stop hlt
    have htail_valid : utf8Valid (p.drop v ++ s) := by
      apply utf8Valid_of_append_right hptake_valid
      rw [← List.append_assoc, List.take_append_drop, hps]
      exact hvalid
    rw [decode_chunk_resume (p.drop v) s hinc hstop htail_valid,
      ← List.append_assoc, List.take_append_drop, hps]

/-- Witness for `decode_chunk_split`: the two-byte character `é` split
down the middle of `"aé"`. -/
theorem decode_chunk_split_witness :
    utf8Valid [0x61, 0xC3, 0xA9] ∧ 2 ≤ List.length ([0x61, 0xC3, 0xA9] : List Nat) ∧
      (decode_chunk ⟨[]⟩ (List.take 2 [0x61, 0xC3, 0xA9])).output ++
          (decode_chunk (decode_chunk ⟨[]⟩ (List.take 2 [0x61, 0xC3, 0xA9])).state
            (List.drop 2 [0x61, 0xC3, 0xA9])).output =
        (decode_chunk ⟨[]⟩ [0x61, 0xC3, 0xA9]).output :=
  ⟨by decide, by decide, decode_chunk_split [0x61, 0xC3, 0xA9] 2 (by decide) (by decide)⟩

/-! ## Association lists modelling `dashmap::DashMap<String, _>` -/

/-- `DashMap::get` (value for key `k`). -/
def alLookup {α : Type} : List (String × α) → String → Option α
  | [], _ => none
  | p :: rest, k => if p.1 = k then some p.2 else alLookup rest k

/-- Whether the map holds key `k`. -/
def alMember {α : Type} : List (String × α) → String → Bool
  | [], _ => false
  | p :: rest, k => decide (p.1 = k) || alMember rest k

/-- `DashMap::insert`: replace the entry for `k`, or add one. -/
def alInsert {α : Type} (m : List (String × α)) (k : String) (v : α) :
    List (String × α) :=
  if alMember m k then m.map (fun p => if p.1 = k then (k, v) else p)
  else m ++ [(k, v)]

theorem alLookup_alInsert {α : Type} (m : List (String × α)) (k : String) (v : α) :
    alLookup (alInsert m k v) k = some v := by
  induction m with
  | nil => simp [alLookup, alInsert, alMember]
  | cons p rest ih =>
    by_cases hp : p.1 = k
    · have hmem : alMember (p :: rest) k = true := by simp [alMember, hp]
      rw [alInsert, if_pos hmem, List.map_cons, if_pos hp]
      simp [alLookup]
    · cases hm : alMember rest k with
      | false =>
        have hmem : alMember (p :: rest) k = false := by simp [alMember, hp, hm]
        rw [alInsert, if_neg (by simp [hmem]), List.cons_append, alLookup,
          if_neg hp]
        have hr : alInsert rest k v = rest ++ [(k, v)] := by
          rw [alInsert, if_neg (by simp [hm])]
        rw [← hr]
        exact ih
      | true =>
        have hmem : alMember (p :: rest) k = true := by simp [alMember, hm]
        rw [alInsert, if_pos hmem, List.map_cons, if_neg hp, alLookup, if_neg hp]
        have hr : alInsert rest k v =
            rest.map (fun q => if q.1 = k then (k, v) else q) := by
          rw [alInsert, if_pos hm]
        rw [← hr]
        exact ih

/-! ## `OptimizedTerminalBuffer` (buffer/mod.rs, lines 9–194)

`storage` is the `BytesMut` contents, `read_positions` the `DashMap` of
reader cursors, `overruns` the only statistics counter the claims touch.
Unsigned subtraction on `Nat` is saturating, matching `saturating_sub`;
`fetch_sub` on `write_pos` never underflows under the invariant
`write_pos = storage.len()` maintained by `write`. -/

inductive BufferError where
  | DataTooLarge
  | BufferFull
  | ReaderNotFound
deriving DecidableEq

structure OptBuffer where
  storage : List Nat
  write_pos : Nat
  read_positions : List (String × Nat)
  overruns : Nat
  max_size : Nat
deriving DecidableEq

/-- `OptimizedTerminalBuffer::new`. -/
def OptBuffer.new (max_size : Nat) : OptBuffer :=
  { storage := [], write_pos := 0, read_positions := [], overruns := 0,
    max_size := max_size }

/-- `Iterator::min` over a list of values. -/
def minVals : List Nat → Option Nat
  | [] => none
  | x :: xs =>
    match minVals xs with
    | none => some x
    | some y => some (min x y)

/-- `read_positions.iter().map(|e| *e.value()).min().unwrap_or(0)`. -/
def minReadPos (m : List (String × Nat)) : Nat :=
  (minVals (m.map Prod.snd)).getD 0

/-- `OptimizedTerminalBuffer::compact_buffer` (lines 89–109). -/
def compact_buffer (b : OptBuffer) : OptBuffer :=
  let min_read_pos := minReadPos b.read_positions
  if 0 < min_read_pos then
    { b with storage := b.storage.drop min_read_pos,
             read_positions :=
               b.read_positions.map (fun p => (p.1, p.2 - min_read_pos)),
             write_pos := b.write_pos - min_read_pos }
  else b

/-- The conditional compaction step inside `write` (lines 52–55). -/
def write_compact_step (b : OptBuffer) (data : List Nat) : OptBuffer :=
  if b.storage.length + data.length > b.max_size then compact_buffer b else b

/-- `OptimizedTerminalBuffer::write` (lines 45–76). -/
def OptBuffer.write (b : OptBuffer) (data : List Nat) :
    Except BufferError Unit × OptBuffer :=
  if data.length > b.max_size / 2 then (.error .DataTooLarge, b)
  else
    let b1 := write_compact_step b data
    if b1.storage.length + data.length > b1.max_size then
      (.error .BufferFull, { b1 with overruns := b1.overruns + 1 })
    else
      (.ok (), { b1 with storage := b1.storage ++ data,
                         write_pos := (b1.storage ++ data).length })

structure BufferReader where
  reader_id : String
  last_read_pos : Nat
deriving DecidableEq

/-- `OptimizedTerminalBuffer::create_reader` (lines 79–86). -/
def create_reader (b : OptBuffer) (reader_id : String) :
    OptBuffer × BufferReader :=
  ({ b with read_positions := alInsert b.read_positions reader_id 0 },
   { reader_id := reader_id, last_read_pos := 0 })

/-- `BufferReader::try_read_next` (lines 173–193); `read_next` performs the
same slice copy once data is available (lines 145–170). -/
def try_read_next (b : OptBuffer) (r : BufferReader) :
    Option (List Nat) × OptBuffer × BufferReader :=
  if b.write_pos ≤ r.last_read_pos then (none, b, r)
  else
    let data := (b.storage.drop r.last_read_pos).take (b.write_pos - r.last_read_pos)
    (some data,
     { b with read_positions := alInsert b.read_positions r.reader_id b.write_pos },
     { r with last_read_pos := b.write_pos })

example : (OptBuffer.write (OptBuffer.new 10) [1, 2, 3]).2.storage = [1, 2, 3] := rfl
example : (OptBuffer.write (OptBuffer.new 10) [1, 2, 3, 4, 5, 6]).1 =
    .error .DataTooLarge := rfl

/-! ### Minimum of the reader cursors -/

theorem minVals_ne_none {l : List Nat} (h : l ≠ []) : ∃ y, minVals l = some y := by
  cases l with
  | nil => cases h rfl
  | cons x xs =>
    rw [minVals]
    cases minVals xs <;> exact ⟨_, rfl⟩

theorem minVals_le : ∀ {l : List Nat} {y x : Nat},
    minVals l = some y → x ∈ l → y ≤ x := by
  intro l
  induction l with
  | nil => intro y x _ hx; cases hx
  | cons a as ih =>
    intro y x h hx
    rw [minVals] at h
    rcases List.mem_cons.mp hx with rfl | hx'
    · cases hmv : minVals as with
      | none => rw [hmv] at h; cases h; exact le_rfl
      | some z => rw [hmv] at h; cases h; exact Nat.min_le_left ..
    · cases hmv : minVals as with
      | none =>
        have hnil : as = [] := by
          cases as with
          | nil => rfl
          | cons b bs =>
            rw [minVals] at hmv
            cases hmb : minVals bs <;> simp [hmb] at hmv
        subst hnil; cases hx'
      | some z =>
        rw [hmv] at h; cases h
        exact le_trans (Nat.min_le_right ..) (ih hmv hx')

theorem minReadPos_le {m : List (String × Nat)} {k : String} {v : Nat}
    (h : (k, v) ∈ m) : minReadPos m ≤ v := by
  have hv : v ∈ m.map Prod.snd := List.mem_map.mpr ⟨(k, v), h, rfl⟩
  have hne : m.map Prod.snd ≠ [] := by
    intro h0; rw [h0] at hv; cases hv
  obtain ⟨y, hy⟩ := minVals_ne_none hne
  rw [minReadPos, hy]
  exact minVals_le hy hv

/-! ### Facts about `compact_buffer` -/

theorem compact_max_size (b : OptBuffer) :
    (compact_buffer b).max_size = b.max_size := by
  simp only [compact_buffer]
  split_ifs <;> rfl

theorem compact_overruns (b : OptBuffer) :
    (compact_buffer b).overruns = b.overruns := by
  simp only [compact_buffer]
  split_ifs <;> rfl

theorem compact_inv (b : OptBuffer) (hinv : b.write_pos = b.storage.length) :
    (compact_buffer b).write_pos = (compact_buffer b).storage.length := by
  simp only [compact_buffer]
  split_ifs with h
  · simp [hinv]
  · exact hinv

/-- C4: compaction drops exactly the bytes strictly below the minimum
reader cursor, rewrites every cursor by subtracting exactly that minimum
(which is a true subtraction: the minimum is below every cursor), and
preserves every reader's unread suffix. -/
theorem compact_buffer_preserves (b : OptBuffer) (k : String) (v : Nat)
    (hmem : (k, v) ∈ b.read_positions) :
    (compact_buffer b).storage = b.storage.drop (minReadPos b.read_positions) ∧
    (compact_buffer b).read_positions =
      b.read_positions.map (fun p => (p.1, p.2 - minReadPos b.read_positions)) ∧
    minReadPos b.read_positions ≤ v ∧
    (k, v - minReadPos b.read_positions) ∈ (compact_buffer b).read_positions ∧
    (compact_buffer b).storage.drop (v - minReadPos b.read_positions) =
      b.storage.drop v := by
  have hle : minReadPos b.read_positions ≤ v := minReadPos_le hmem
  by_cases h : 0 < minReadPos b.read_positions
  · have hc : compact_buffer b =
        { b with storage := b.storage.drop (minReadPos b.read_positions),
                 read_positions := b.read_positions.map
                   (fun p => (p.1, p.2 - minReadPos b.read_positions)),
                 write_pos := b.write_pos - minReadPos b.read_positions } := by
      simp only [compact_buffer, if_pos h]
    refine ⟨by rw [hc], by rw [hc], hle, ?_, ?_⟩
    · rw [hc]
      exact List.mem_map.mpr ⟨(k, v), hmem, rfl⟩
    · rw [hc]
      show (b.storage.drop (minReadPos b.read_positions)).drop
          (v - minReadPos b.read_positions) = b.storage.drop v
      rw [List.drop_drop]
      congr 1
      omega
  · have hm0 : minReadPos b.read_positions = 0 := by omega
    have hc : compact_buffer b = b := by
      simp only [compact_buffer, if_neg h]
    rw [hc, hm0]
    refine ⟨by simp, ?_, by omega, by simpa using hmem, by simp⟩
    simp

/-- Witness for `compact_buffer_preserves`: two readers at offsets 2 and 5;
reader "a" keeps its unread suffix across compaction. -/
theorem compact_buffer_preserves_witness :
    (compact_buffer ⟨[0, 1, 2, 3, 4, 5], 6, [("a", 2), ("b", 5)], 0, 8⟩).storage.drop
        (2 - minReadPos [("a", 2), ("b", 5)]) =
      List.drop 2 [0, 1, 2, 3, 4, 5] :=
  (compact_buffer_preserves ⟨[0, 1, 2, 3, 4, 5], 6, [("a", 2), ("b", 5)], 0, 8⟩
    "a" 2 (by decide)).2.2.2.2

/-! ### C2: where `create_reader` registers the new cursor -/

/-- C2 (counterexample): after writing `[1,2,3]` to a fresh buffer the write
position is `3`, yet `create_reader` registers the new reader at cursor `0`
(not at the write position) and the reader's first `try_read_next` returns
the previously buffered bytes `[1,2,3]` instead of nothing. -/
theorem create_reader_counterexample :
    ((OptBuffer.write (OptBuffer.new 100) [1, 2, 3]).2).write_pos = 3 ∧
    (create_reader (OptBuffer.write (OptBuffer.new 100) [1, 2, 3]).2
      "r").2.last_read_pos = 0 ∧
    alLookup (create_reader (OptBuffer.write (OptBuffer.new 100) [1, 2, 3]).2
      "r").1.read_positions "r" = some 0 ∧
    (try_read_next
      (create_reader (OptBuffer.write (OptBuffer.new 100) [1, 2, 3]).2 "r").1
      (create_reader (OptBuffer.write (OptBuffer.new 100) [1, 2, 3]).2 "r").2).1 =
      some [1, 2, 3] :=
  ⟨rfl, rfl, rfl, rfl⟩

/-- C2 (amended): `create_reader` registers the fresh cursor at position `0`,
so a reader attached after bytes were written receives on its first
(non-blocking) read all the still-buffered bytes up to the write position —
previously written data is replayed, not skipped. -/
theorem create_reader_registers_zero (b : OptBuffer) (id : String)
    (hw : 0 < b.write_pos) :
    (create_reader b id).2.last_read_pos = 0 ∧
    alLookup (create_reader b id).1.read_positions id = some 0 ∧
    (try_read_next (create_reader b id).1 (create_reader b id).2).1 =
      some (b.storage.take b.write_pos) := by
  refine ⟨rfl, alLookup_alInsert .., ?_⟩
  show (try_read_next { b with read_positions := alInsert b.read_positions id 0 }
    ⟨id, 0⟩).1 = some (b.storage.take b.write_pos)
  rw [try_read_next, if_neg (by dsimp only; omega)]
  simp

/-- Witness for `create_reader_registers_zero` on a buffer holding two bytes. -/
theorem create_reader_registers_zero_witness :
    0 < ((OptBuffer.write (OptBuffer.new 100) [7, 8]).2).write_pos ∧
    (try_read_next
        (create_reader (OptBuffer.write (OptBuffer.new 100) [7, 8]).2 "w").1
        (create_reader (OptBuffer.write (OptBuffer.new 100) [7, 8]).2 "w").2).1 =
      some (((OptBuffer.write (OptBuffer.new 100) [7, 8]).2).storage.take
        ((OptBuffer.write (OptBuffer.new 100) [7, 8]).2).write_pos) :=
  ⟨by decide,
   (create_reader_registers_zero (OptBuffer.write (OptBuffer.new 100) [7, 8]).2
     "w" (by decide)).2.2⟩

/-! ### C3: the `write` contract -/

/-- C3: `write` rejects oversized writes (`> max_size/2`, i.e. more than half
the capacity) with `DataTooLarge`; otherwise, when the append would overflow
it first compacts (`write_compact_step`), re-checks, and fails with
`BufferFull` while bumping the overrun counter if the write still does not
fit; on success the data is appended and the write position advances by
`data.length`. -/
theorem write_contract (b : OptBuffer) (data : List Nat)
    (hinv : b.write_pos = b.storage.length) :
    (((OptBuffer.write b data).1 = .error .DataTooLarge) ↔
        b.max_size < 2 * data.length) ∧
    (2 * data.length ≤ b.max_size →
      (((OptBuffer.write b data).1 = .error .BufferFull) ↔
          b.max_size < (write_compact_step b data).storage.length + data.length) ∧
      (b.max_size < (write_compact_step b data).storage.length + data.length →
        (OptBuffer.write b data).2.overruns = b.overruns + 1 ∧
        (OptBuffer.write b data).2.storage = (write_compact_step b data).storage) ∧
      ((write_compact_step b data).storage.length + data.length ≤ b.max_size →
        (OptBuffer.write b data).1 = .ok () ∧
        (OptBuffer.write b data).2.storage =
          (write_compact_step b data).storage ++ data ∧
        (OptBuffer.write b data).2.write_pos =
          (write_compact_step b data).write_pos + data.length)) := by
  have hmax : (write_compact_step b data).max_size = b.max_size := by
    rw [write_compact_step]
    split_ifs
    · exact compact_max_size b
    · rfl
  have hov : (write_compact_step b data).overruns = b.overruns := by
    rw [write_compact_step]
    split_ifs
    · exact compact_overruns b
    · rfl
  have hinv1 : (write_compact_step b data).write_pos =
      (write_compact_step b data).storage.length := by
    rw [write_compact_step]
    split_ifs
    · exact compact_inv b hinv
    · exact hinv
  by_cases htl : data.length > b.max_size / 2
  · have h2 : b.max_size < 2 * data.length := by omega
    have hw : OptBuffer.write b data = (.error .DataTooLarge, b) := by
      rw [OptBuffer.write, if_pos htl]
    refine ⟨by rw [hw]; exact iff_of_true rfl h2, fun hle => absurd h2 (by omega)⟩
  · have h2 : ¬ b.max_size < 2 * data.length := by omega
    have hw : OptBuffer.write b data =
        (if (write_compact_step b data).storage.length + data.length >
            (write_compact_step b data).max_size then
          (.error .BufferFull,
           { write_compact_step b data with
               overruns := (write_compact_step b data).overruns + 1 })
        else
          (.ok (),
           { write_compact_step b data with
               storage := (write_compact_step b data).storage ++ data,
               write_pos := ((write_compact_step b data).storage ++ data).length })) := by
      rw [OptBuffer.write, if_neg htl]
    refine ⟨?_, fun _ => ⟨?_, ?_, ?_⟩⟩
    · rw [hw]
      split_ifs with hfull
      · exact iff_of_false (by simp) h2
      · exact iff_of_false (by simp) h2
    · rw [hw]
      rw [hmax] at *
      split_ifs with hfull
      · exact iff_of_true rfl (by omega)
      · exact iff_of_false (by simp) (by omega)
    · intro hfull
      rw [hw, if_pos (by rw [hmax]; omega)]
      exact ⟨by simp [hov], rfl⟩
    · intro hfit
      rw [hw, if_neg (by rw [hmax]; omega)]
      refine ⟨rfl, rfl, ?_⟩
      simp [List.length_append, hinv1]

/-- Witness for `write_contract`: a two-byte store with one reader at offset 1,
capacity 4, writing one byte. -/
theorem write_contract_witness :
    ((OptBuffer.write ⟨[1, 2], 2, [("r", 1)], 0, 4⟩ [9]).1 =
        .error .DataTooLarge) ↔
      OptBuffer.max_size ⟨[1, 2], 2, [("r", 1)], 0, 4⟩ < 2 * List.length [9] :=
  (write_contract ⟨[1, 2], 2, [("r", 1)], 0, 4⟩ [9] rfl).1

/-! ## `TerminalDeltaTracker` (terminal_delta.rs, lines 49–256)

`compute_delta` only ever compares the stored `hash` fields for equality and
never recomputes them, so the external `xxh3_64` value is carried as opaque
data on each `TerminalLine`.  `String::from_utf8_lossy(...).to_string()` is
modelled as the content bytes themselves (the claims never inspect them). -/

structure TerminalLine where
  content : List Nat
  hash : Nat
deriving DecidableEq

structure TerminalSnapshot where
  lines : List TerminalLine
  cursor_row : Nat
  cursor_col : Nat
  viewport_top : Nat
  viewport_height : Nat
deriving DecidableEq

structure LineDelta where
  line_number : Nat
  content : List Nat
  hash : Nat
deriving DecidableEq

structure TerminalDelta where
  changes : List LineDelta
  cursor_row : Option Nat
  cursor_col : Option Nat
  viewport_top : Option Nat
  clear_screen : Bool
deriving DecidableEq

/-- The "send all new lines" loops (lines 170–176 and 226–232). -/
def allLines (lines : List TerminalLine) : List LineDelta :=
  lines.enum.map (fun p => ⟨p.1, p.2.content, p.2.hash⟩)

/-- The hash-diff loop (lines 183–197): iterate the new lines with their
index, emitting a delta where the hash differs or the line is new. -/
def diffLinesAux (old : List TerminalLine) : Nat → List TerminalLine → List LineDelta
  | _, [] => []
  | idx, nl :: rest =>
    let changed : Bool :=
      match old[idx]? with
      | some ol => ol.hash != nl.hash
      | none => true
    (if changed then [⟨idx, nl.content, nl.hash⟩] else []) ++
      diffLinesAux old (idx + 1) rest

def diffLines (old new : List TerminalLine) : List LineDelta :=
  diffLinesAux old 0 new

/-- Blanking deltas for removed trailing lines (lines 200–208). -/
def blankTail (old new : List TerminalLine) : List LineDelta :=
  if old.length > new.length then
    (List.range' new.length (old.length - new.length)).map (fun idx => ⟨idx, [], 0⟩)
  else []

/-- "include only if changed" for cursor/viewport fields (lines 212–222). -/
def optIfNe (old new : Nat) : Option Nat := if old ≠ new then some new else none

/-- `TerminalDeltaTracker::compute_delta` (lines 154–251); the tracker state
is the `client_snapshots` map, returned alongside the optional delta. -/
def compute_delta (snaps : List (String × TerminalSnapshot)) (client_id : String)
    (ns : TerminalSnapshot) : Option TerminalDelta × List (String × TerminalSnapshot) :=
  let delta : TerminalDelta :=
    match alLookup snaps client_id with
    | some os =>
      let d1 : TerminalDelta :=
        if ns.lines.length < os.lines.length / 2 then
          ⟨allLines ns.lines, none, none, none, true⟩
        else
          ⟨diffLines os.lines ns.lines ++ blankTail os.lines ns.lines,
           none, none, none, false⟩
      { d1 with cursor_row := optIfNe os.cursor_row ns.cursor_row,
                cursor_col := optIfNe os.cursor_col ns.cursor_col,
                viewport_top := optIfNe os.viewport_top ns.viewport_top }
    | none =>
      ⟨allLines ns.lines, some ns.cursor_row, some ns.cursor_col,
       some ns.viewport_top, true⟩
  let snaps' := alInsert snaps client_id ns
  if delta.changes = [] ∧ delta.cursor_row = none ∧ delta.cursor_col = none ∧
      delta.viewport_top = none ∧ delta.clear_screen = false then
    (none, snaps')
  else (some delta, snaps')

example :
    (compute_delta [] "c" ⟨[⟨[0x68], 42⟩], 0, 1, 0, 24⟩).1 =
      some ⟨[⟨0, [0x68], 42⟩], some 0, some 1, some 0, true⟩ := by decide

/-! ### C5: the screen-clear heuristic uses integer (floor) division -/

/-- C5 (counterexample): previous snapshot has 5 lines, new one has 2.
Two is fewer than half of five (2·2 < 5), yet the code compares against the
floor `5 / 2 = 2`, so the hash-diff path runs and `clear_screen = false`. -/
theorem compute_delta_clear_counterexample :
    2 * 2 < 5 ∧
    (compute_delta
        [("c", ⟨[⟨[], 1⟩, ⟨[], 2⟩, ⟨[], 3⟩, ⟨[], 4⟩, ⟨[], 5⟩], 0, 0, 0, 24⟩)]
        "c" ⟨[⟨[], 6⟩, ⟨[], 7⟩], 0, 0, 0, 24⟩).1 =
      some ⟨[⟨0, [], 6⟩, ⟨1, [], 7⟩, ⟨2, [], 0⟩, ⟨3, [], 0⟩, ⟨4, [], 0⟩],
        none, none, none, false⟩ := by decide

/-- C5 (amended): with a stored previous snapshot, `compute_delta` takes the
clear-screen path (emitting every new line with `clear_screen = true`)
exactly when the new line count is below `⌊old/2⌋` (integer division, so for
an odd old count `n`, a new count equal to `(n-1)/2` does *not* clear);
otherwise it runs the hash-diff and the result is `None` or a delta with
`clear_screen = false`. -/
theorem compute_delta_clear_heuristic (snaps : List (String × TerminalSnapshot))
    (id : String) (os ns : TerminalSnapshot)
    (hprev : alLookup snaps id = some os) :
    (ns.lines.length < os.lines.length / 2 →
      (compute_delta snaps id ns).1 =
        some ⟨allLines ns.lines, optIfNe os.cursor_row ns.cursor_row,
          optIfNe os.cursor_col ns.cursor_col,
          optIfNe os.viewport_top ns.viewport_top, true⟩) ∧
    (os.lines.length / 2 ≤ ns.lines.length →
      (compute_delta snaps id ns).1 = none ∨
      (compute_delta snaps id ns).1 =
        some ⟨diffLines os.lines ns.lines ++ blankTail os.lines ns.lines,
          optIfNe os.cursor_row ns.cursor_row,
          optIfNe os.cursor_col ns.cursor_col,
          optIfNe os.viewport_top ns.viewport_top, false⟩) := by
  constructor
  · intro hlt
    simp only [compute_delta, hprev, if_pos hlt]
    rw [if_neg (by simp)]
  · intro hge
    have hnlt : ¬ ns.lines.length < os.lines.length / 2 := by omega
    simp only [compute_delta, hprev, if_neg hnlt]
    split_ifs with hempty
    · left; rfl
    · right; rfl

/-- Witness for `compute_delta_clear_heuristic`: 4 previous lines, 1 new
line (`1 < 4 / 2`) clears the screen. -/
theorem compute_delta_clear_heuristic_witness :
    (compute_delta [("c", ⟨[⟨[], 1⟩, ⟨[], 2⟩, ⟨[], 3⟩, ⟨[], 4⟩], 0, 0, 0, 24⟩)]
        "c" ⟨[⟨[], 9⟩], 0, 0, 0, 24⟩).1 =
      some ⟨[⟨0, [], 9⟩], none, none, none, true⟩ :=
  (compute_delta_clear_heuristic
      [("c", ⟨[⟨[], 1⟩, ⟨[], 2⟩, ⟨[], 3⟩, ⟨[], 4⟩], 0, 0, 0, 24⟩)] "c"
      ⟨[⟨[], 1⟩, ⟨[], 2⟩, ⟨[], 3⟩, ⟨[], 4⟩], 0, 0, 0, 24⟩
      ⟨[⟨[], 9⟩], 0, 0, 0, 24⟩ rfl).1 (by decide)

/-! ### C9: identical consecutive snapshots produce no delta -/

theorem diffLinesAux_nil : ∀ (new old : List TerminalLine) (i : Nat),
    (old.drop i).map TerminalLine.hash = new.map TerminalLine.hash →
    diffLinesAux old i new = [] := by
  intro new
  induction new with
  | nil => intro old i _; rfl
  | cons nl rest ih =>
    intro old i h
    cases hd : old.drop i with
    | nil => rw [hd] at h; cases h
    | cons ol tl =>
      rw [hd] at h
      simp only [List.map_cons, List.cons.injEq] at h
      have hget : old[i]? = some ol := by
        have h0 : (old.drop i)[0]? = some ol := by rw [hd]; simp
        rwa [List.getElem?_drop, Nat.add_zero] at h0
      have hdrop1 : old.drop (i + 1) = tl := by
        have : (old.drop i).drop 1 = old.drop (i + 1) := List.drop_drop 1 i old
        rw [← this, hd, List.drop_one, List.tail_cons]
      have hch : (ol.hash != nl.hash) = false := by
        simp [h.1]
      rw [diffLinesAux, hget]
      simp only [hch, Bool.false_eq_true, if_false, List.nil_append]
      exact ih old (i + 1) (by rw [hdrop1]; exact h.2)

theorem diffLines_nil {old new : List TerminalLine}
    (h : old.map TerminalLine.hash = new.map TerminalLine.hash) :
    diffLines old new = [] :=
  diffLinesAux_nil new old 0 (by simpa using h)

/-- The updated tracker state always stores the new snapshot. -/
theorem compute_delta_stores (snaps : List (String × TerminalSnapshot))
    (id : String) (ns : TerminalSnapshot) :
    (compute_delta snaps id ns).2 = alInsert snaps id ns := by
  simp only [compute_delta]
  split_ifs <;> rfl

/-- C9: calling `compute_delta` twice in a row for the same client with
snapshots that agree on per-line hashes, cursor position and viewport top
returns `None` the second time. -/
theorem compute_delta_idempotent (snaps : List (String × TerminalSnapshot))
    (id : String) (s1 s2 : TerminalSnapshot)
    (hh : s1.lines.map TerminalLine.hash = s2.lines.map TerminalLine.hash)
    (hr : s1.cursor_row = s2.cursor_row)
    (hc : s1.cursor_col = s2.cursor_col)
    (hv : s1.viewport_top = s2.viewport_top) :
    (compute_delta (compute_delta snaps id s1).2 id s2).1 = none := by
  rw [compute_delta_stores]
  have hsnap : alLookup (alInsert snaps id s1) id = some s1 := alLookup_alInsert ..
  have hlen : s2.lines.length = s1.lines.length := by
    have := congrArg List.length hh
    simpa using this.symm
  have hnlt : ¬ s2.lines.length < s1.lines.length / 2 := by omega
  simp only [compute_delta, hsnap, if_neg hnlt]
  rw [if_pos]
  refine ⟨?_, ?_, ?_, ?_, trivial⟩
  · show diffLines s1.lines s2.lines ++ blankTail s1.lines s2.lines = []
    rw [diffLines_nil hh, blankTail, if_neg (by omega), List.append_nil]
  · show optIfNe s1.cursor_row s2.cursor_row = none
    simp [optIfNe, hr]
  · show optIfNe s1.cursor_col s2.cursor_col = none
    simp [optIfNe, hc]
  · show optIfNe s1.viewport_top s2.viewport_top = none
    simp [optIfNe, hv]

/-- Witness for `compute_delta_idempotent`: the same one-line snapshot twice. -/
theorem compute_delta_idempotent_witness :
    (compute_delta
        (compute_delta [] "c" ⟨[⟨[0x61], 5⟩], 1, 2, 0, 24⟩).2 "c"
        ⟨[⟨[0x61], 5⟩], 1, 2, 0, 24⟩).1 = none :=
  compute_delta_idempotent [] "c" ⟨[⟨[0x61], 5⟩], 1, 2, 0, 24⟩
    ⟨[⟨[0x61], 5⟩], 1, 2, 0, 24⟩ rfl rfl rfl rfl

/-! ## `capture_loop` (websocket/optimized_session_manager.rs, lines 319–417) -/

/-- What one tick of the capture loop observes from its environment: no
connected clients, no free capture-semaphore permit, a successful
`tmux::capture_pane` (represented by the `xxh3_64` hash of the captured
content — the only thing the loop's control flow inspects), or a capture
failure. -/
inductive CaptureEvent where
  | noClients
  | noPermit
  | captured (hash : Nat)
  | failed
deriving DecidableEq

structure CaptureState where
  last_content_hash : Nat
  consecutive_errors : Nat
  capture_errors : Nat
  /-- hashes of the contents written to the buffer and broadcast -/
  writes : List Nat
deriving DecidableEq

/-- The loop's locals at entry: `last_content_hash = 0`,
`consecutive_errors = 0` (lines 329–330). -/
def CaptureState.init : CaptureState := ⟨0, 0, 0, []⟩

/-- One iteration of the loop body; the `Bool` is `true` when the iteration
hits `break` (lines 408–411).  A buffer-write failure inside the `Ok` branch
would bump `capture_errors` and `continue` without touching
`consecutive_errors`; the claims do not exercise it, so the write is
recorded as succeeding. -/
def capture_step (st : CaptureState) (e : CaptureEvent) : CaptureState × Bool :=
  match e with
  | .noClients => (st, false)
  | .noPermit => (st, false)
  | .captured h =>
    let st1 := { st with consecutive_errors := 0 }
    if h ≠ st1.last_content_hash then
      ({ st1 with last_content_hash := h, writes := st1.writes ++ [h] }, false)
    else (st1, false)
  | .failed =>
    let st1 := { st with consecutive_errors := st.consecutive_errors + 1,
                         capture_errors := st.capture_errors + 1 }
    (st1, decide (st1.consecutive_errors > 10))

/-- Run the loop over a finite schedule of tick events; the `Bool` is `true`
iff the loop terminated via `break`, after which no further events are
processed. -/
def run_capture_loop : CaptureState → List CaptureEvent → CaptureState × Bool
  | st, [] => (st, false)
  | st, e :: rest =>
    let r := capture_step st e
    if r.2 then (r.1, true) else run_capture_loop r.1 rest

/-- C6 (counterexample): after exactly 10 consecutive capture failures the
loop has *not* terminated (`consecutive_errors > 10` is still false), and an
11th tick with a successful capture is still processed and broadcast. -/
theorem capture_loop_counterexample :
    run_capture_loop CaptureState.init (List.replicate 10 .failed) =
      (⟨0, 10, 10, []⟩, false) ∧
    run_capture_loop CaptureState.init
        (List.replicate 10 .failed ++ [.captured 7]) =
      (⟨7, 0, 10, [7]⟩, false) := by decide

/-- C6 (amended): a successful capture resets the consecutive-failure
counter, each failure increments it, and the loop terminates after **11**
consecutive failures (the code breaks on `consecutive_errors > 10`),
processing no further events. -/
theorem capture_loop_stops_after_11 (st : CaptureState)
    (rest : List CaptureEvent) (h : st.consecutive_errors = 0) :
    (∀ hsh : Nat, (capture_step st (.captured hsh)).1.consecutive_errors = 0) ∧
    (capture_step st .failed).1.consecutive_errors = st.consecutive_errors + 1 ∧
    run_capture_loop st (List.replicate 11 .failed ++ rest) =
      ({ st with consecutive_errors := 11,
                 capture_errors := st.capture_errors + 11 }, true) := by
  obtain ⟨lh, ce, cap, ws⟩ := st
  simp only at h
  subst h
  refine ⟨?_, by simp [capture_step], ?_⟩
  · intro hsh
    simp only [capture_step]
    split_ifs <;> rfl
  · simp [run_capture_loop, capture_step, List.replicate, CaptureState.mk.injEq]

/-- Witness for `capture_loop_stops_after_11` from the initial state. -/
theorem capture_loop_stops_after_11_witness :
    run_capture_loop CaptureState.init (List.replicate 11 .failed ++ []) =
      (⟨0, 11, 0 + 11, []⟩, true) :=
  (capture_loop_stops_after_11 CaptureState.init [] rfl).2.2

/-! ## `input_processor_loop` (websocket/optimized_session_manager.rs,
lines 419–505) -/

inductive InputCommand where
  | Text (s : String)
  | SpecialKey (k : String)
  | Resize (cols rows : Nat)
deriving DecidableEq

/-- The external side effects of one tick, in execution order:
`tmux::send_keys_to_session`, `tmux::send_special_key`, and the
`tmux resize-window` shell command. -/
inductive ExternalCall where
  | sendKeys (s : String)
  | sendSpecial (k : String)
  | resize (cols rows : Nat)
deriving DecidableEq

/-- `if !text_buffer.is_empty() { send_keys_to_session(..., text_buffer) }`. -/
def flushText (t : String) : List ExternalCall :=
  if t = "" then [] else [.sendKeys t]

/-- The `while commands_processed < max_batch_size` drain loop plus the
trailing "send any remaining text" flush (lines 442–501); first argument is
the remaining budget, second the accumulated `text_buffer`.  Returns the
external calls in execution order and what is left in the queue. -/
def inputTick : Nat → String → List InputCommand → List ExternalCall × List InputCommand
  | 0, textBuf, q => (flushText textBuf, q)
  | _ + 1, textBuf, [] => (flushText textBuf, [])
  | b + 1, textBuf, .Text t :: rest => inputTick b (textBuf ++ t) rest
  | b + 1, textBuf, .SpecialKey k :: rest =>
    let r := inputTick b "" rest
    (flushText textBuf ++ .sendSpecial k :: r.1, r.2)
  | b + 1, textBuf, .Resize c rws :: rest =>
    let r := inputTick b "" rest
    (flushText textBuf ++ .resize c rws :: r.1, r.2)

/-- One tick of `input_processor_loop` on the queue it drains. -/
def input_processor_tick (maxBatch : Nat) (queue : List InputCommand) :
    List ExternalCall × List InputCommand :=
  inputTick maxBatch "" queue

/-- The leading run of consecutive `Text` commands, concatenated, and the
rest of the queue. -/
def textRun : List InputCommand → String × List InputCommand
  | .Text t :: rest =>
    let r := textRun rest
    (t ++ r.1, r.2)
  | q => ("", q)

theorem textRun_length : ∀ q : List InputCommand, (textRun q).2.length ≤ q.length := by
  intro q
  induction q with
  | nil => simp [textRun]
  | cons c rest ih =>
    cases c with
    | Text t =>
      simp only [textRun, List.length_cons]
      omega
    | SpecialKey k => simp [textRun]
    | Resize c r => simp [textRun]

/-- The specification's description of one tick's external calls: maximal
runs of consecutive `Text` commands become one combined send (nothing if the
combined text is empty), and each `SpecialKey`/`Resize` is executed in
place, preserving arrival order. -/
def coalesceSpec : List InputCommand → List ExternalCall
  | [] => []
  | .Text t :: rest =>
    flushText (t ++ (textRun rest).1) ++ coalesceSpec (textRun rest).2
  | .SpecialKey k :: rest => .sendSpecial k :: coalesceSpec rest
  | .Resize c rws :: rest => .resize c rws :: coalesceSpec rest
termination_by q => q.length
decreasing_by
  · have := textRun_length rest
    simp only [List.length_cons]
    omega
  · simp
  · simp

theorem coalesceSpec_textRun : ∀ q : List InputCommand,
    coalesceSpec q = flushText (textRun q).1 ++ coalesceSpec (textRun q).2 := by
  intro q
  match q with
  | [] => simp [textRun, coalesceSpec, flushText]
  | .Text t :: rest => simp [textRun, coalesceSpec]
  | .SpecialKey k :: rest => simp [textRun, coalesceSpec, flushText]
  | .Resize c rws :: rest => simp [textRun, coalesceSpec, flushText]

/-- Loop-accumulator form of the coalescing, for the induction. -/
def coalesceAux : String → List InputCommand → List ExternalCall
  | tb, [] => flushText tb
  | tb, .Text t :: rest => coalesceAux (tb ++ t) rest
  | tb, .SpecialKey k :: rest => flushText tb ++ .sendSpecial k :: coalesceAux "" rest
  | tb, .Resize c rws :: rest => flushText tb ++ .resize c rws :: coalesceAux "" rest

theorem coalesceAux_eq : ∀ (q : List InputCommand) (tb : String),
    coalesceAux tb q = flushText (tb ++ (textRun q).1) ++ coalesceSpec (textRun q).2 := by
  intro q
  induction q with
  | nil =>
    intro tb
    simp [coalesceAux, textRun, coalesceSpec]
  | cons c rest ih =>
    intro tb
    cases c with
    | Text t =>
      show coalesceAux (tb ++ t) rest = _
      rw [ih (tb ++ t)]
      simp only [textRun, String.append_assoc]
    | SpecialKey k =>
      show flushText tb ++ .sendSpecial k :: coalesceAux "" rest = _
      rw [ih "", String.empty_append, ← coalesceSpec_textRun rest]
      simp [textRun, coalesceSpec]
    | Resize c rws =>
      show flushText tb ++ .resize c rws :: coalesceAux "" rest = _
      rw [ih "", String.empty_append, ← coalesceSpec_textRun rest]
      simp [textRun, coalesceSpec]

theorem inputTick_eq_coalesceAux : ∀ (b : Nat) (tb : String) (q : List InputCommand),
    inputTick b tb q = (coalesceAux tb (q.take b), q.drop b) := by
  intro b
  induction b with
  | zero =>
    intro tb q
    simp [inputTick, coalesceAux]
  | succ b ih =>
    intro tb q
    cases q with
    | nil => simp [inputTick, coalesceAux]
    | cons c rest =>
      cases c with
      | Text t => simp [inputTick, coalesceAux, ih]
      | SpecialKey k => simp [inputTick, coalesceAux, ih]
      | Resize c rws => simp [inputTick, coalesceAux, ih]

/-- C7: one tick of the input processor drains exactly the first
`min(max_batch, length)` commands, leaving the rest queued, and its external
invocations are precisely the order-preserving coalescing of that drained
prefix: consecutive `Text` runs become one combined send, flushed before
each `SpecialKey`/`Resize`, with nothing reordered. -/
theorem input_processor_tick_correct (maxBatch : Nat) (queue : List InputCommand) :
    input_processor_tick maxBatch queue =
      (coalesceSpec (queue.take maxBatch), queue.drop maxBatch) := by
  rw [input_processor_tick, inputTick_eq_coalesceAux, coalesceAux_eq,
    String.empty_append, ← coalesceSpec_textRun]

example :
    input_processor_tick 100
      [.Text "a", .Text "b", .SpecialKey "Enter", .Text "c", .Resize 80 24] =
    ([.sendKeys "ab", .sendSpecial "Enter", .sendKeys "c", .resize 80 24], []) := by
  decide

example :
    input_processor_tick 2 [.Text "a", .Text "b", .SpecialKey "Enter"] =
    ([.sendKeys "ab"], [.SpecialKey "Enter"]) := by decide

/-! ## `OptimizedClientManager::send_to_client` (websocket/optimized.rs,
lines 156–186) -/

/-- A client connection as `send_to_client` observes it: the backpressure
semaphore's available permits and the bounded `mpsc` channel (queued
messages and capacity).  The message type is opaque. -/
structure ClientConn (Msg : Type) where
  availablePermits : Nat
  queue : List Msg
  queueCap : Nat
deriving DecidableEq

structure ManagerState (Msg : Type) where
  clients : List (String × ClientConn Msg)
  backpressure_events : Nat
deriving DecidableEq

inductive SendOutcome where
  | noClient
  | droppedBackpressure
  | sent
  | trySendFailed
deriving DecidableEq

/-- `send_to_client`: look the client up; with zero available permits the
message is dropped and `backpressure_events` incremented (lines 168–172);
otherwise `try_acquire_owned` succeeds (sequential execution; the owned
permit is released again when `_permit` is dropped at the end of the block)
and a non-blocking `try_send` is attempted, which enqueues iff the channel
has room (lines 174–179). -/
def send_to_client {Msg : Type} (st : ManagerState Msg) (client_id : String)
    (message : Msg) : SendOutcome × ManagerState Msg :=
  match alLookup st.clients client_id with
  | none => (.noClient, st)
  | some c =>
    if c.availablePermits = 0 then
      (.droppedBackpressure,
       { st with backpressure_events := st.backpressure_events + 1 })
    else
      if c.queue.length < c.queueCap then
        (.sent,
         { st with clients := (alInsert st.clients client_id
             { c with queue := c.queue ++ [message] }) })
      else (.trySendFailed, st)

/-- C8: when the target client's semaphore has zero available permits the
message is dropped — no client queue changes, the caller is not blocked —
and the backpressure counter is incremented; with permits available, a
permit is acquired and a non-blocking send is attempted instead (enqueueing
when the channel has room, failing without state change otherwise). -/
theorem send_to_client_backpressure {Msg : Type} (st : ManagerState Msg)
    (client_id : String) (message : Msg) (c : ClientConn Msg)
    (hc : alLookup st.clients client_id = some c) :
    (c.availablePermits = 0 →
      (send_to_client st client_id message).1 = .droppedBackpressure ∧
      (send_to_client st client_id message).2.backpressure_events =
        st.backpressure_events + 1 ∧
      (send_to_client st client_id message).2.clients = st.clients) ∧
    (0 < c.availablePermits →
      ((send_to_client st client_id message).1 = .sent ∧
        alLookup (send_to_client st client_id message).2.clients client_id =
          some { c with queue := c.queue ++ [message] }) ∨
      ((send_to_client st client_id message).1 = .trySendFailed ∧
        (send_to_client st client_id message).2 = st)) := by
  constructor
  · intro h0
    simp only [send_to_client, hc, if_pos h0]
    refine ⟨?_, ?_, ?_⟩ <;> trivial
  · intro hpos
    have h0 : ¬ c.availablePermits = 0 := by omega
    by_cases hq : c.queue.length < c.queueCap
    · left
      simp only [send_to_client, hc, if_neg h0, if_pos hq]
      exact ⟨by trivial, alLookup_alInsert ..⟩
    · right
      simp only [send_to_client, hc, if_neg h0, if_neg hq]
      refine ⟨?_, ?_⟩ <;> trivial

/-- Witness for `send_to_client_backpressure`: a client with zero permits
drops the message and counts a backpressure event; one with two permits and
a free channel gets the message enqueued. -/
theorem send_to_client_backpressure_witness :
    ((send_to_client (⟨[("a", ⟨0, [], 4⟩)], 0⟩ : ManagerState Nat) "a" 7).1 =
        .droppedBackpressure ∧
      (send_to_client (⟨[("a", ⟨0, [], 4⟩)], 0⟩ : ManagerState Nat) "a"
          7).2.backpressure_events = 0 + 1 ∧
      (send_to_client (⟨[("a", ⟨0, [], 4⟩)], 0⟩ : ManagerState Nat) "a"
          7).2.clients = [("a", ⟨0, [], 4⟩)]) ∧
    (((send_to_client (⟨[("b", ⟨2, [], 4⟩)], 0⟩ : ManagerState Nat) "b" 7).1 =
          .sent ∧
        alLookup (send_to_client (⟨[("b", ⟨2, [], 4⟩)], 0⟩ : ManagerState Nat)
            "b" 7).2.clients "b" = some ⟨2, [7], 4⟩) ∨
      ((send_to_client (⟨[("b", ⟨2, [], 4⟩)], 0⟩ : ManagerState Nat) "b" 7).1 =
          .trySendFailed ∧
        (send_to_client (⟨[("b", ⟨2, [], 4⟩)], 0⟩ : ManagerState Nat) "b" 7).2 =
          ⟨[("b", ⟨2, [], 4⟩)], 0⟩)) :=
  ⟨(send_to_client_backpressure ⟨[("a", ⟨0, [], 4⟩)], 0⟩ "a" 7 ⟨0, [], 4⟩ rfl).1 rfl,
   (send_to_client_backpressure ⟨[("b", ⟨2, [], 4⟩)], 0⟩ "b" 7 ⟨2, [], 4⟩ rfl).2
     (by decide)⟩

/-! ## `TerminalRingBuffer` / `TerminalReader` (terminal_buffer.rs,
lines 11–143)

The fixed byte ring and its `write_pos` are never observed through the chunk
queue the readers consume, so the state carries the sequence counter and the
`ArrayQueue` of completed chunks (front = oldest, capacity 1024, oldest
dropped on overflow). -/

structure TerminalChunk where
  sequence : Nat
  data : List Nat
deriving DecidableEq

structure RingBufferState where
  sequence : Nat
  chunks : List TerminalChunk
deriving DecidableEq

/-- `TerminalRingBuffer::new` (sequence counter starts at 0). -/
def RingBufferState.new : RingBufferState := ⟨0, []⟩

def MAX_CHUNK_SIZE : Nat := 65536
def CHUNK_QUEUE_CAP : Nat := 1024

/-- `while self.chunks.push(chunk.clone()).is_err() { self.chunks.pop(); }`
(lines 82–84): evict oldest entries until the chunk fits. -/
def pushDropOldest (q : List TerminalChunk) (c : TerminalChunk) :
    List TerminalChunk :=
  if q.length < CHUNK_QUEUE_CAP then q ++ [c]
  else q.drop (q.length + 1 - CHUNK_QUEUE_CAP) ++ [c]

/-- `TerminalRingBuffer::write` (lines 51–90): `fetch_add(1)` returns the
*previous* counter value, which becomes the new chunk's sequence number, so
the first chunk ever written carries sequence 0. -/
def ringWrite (b : RingBufferState) (data : List Nat) :
    Except String RingBufferState :=
  if data.length > MAX_CHUNK_SIZE then .error "Data too large for single write"
  else
    .ok { sequence := b.sequence + 1,
          chunks := pushDropOldest b.chunks ⟨b.sequence, data⟩ }

structure RingReader where
  last_sequence : Nat
deriving DecidableEq

/-- `TerminalRingBuffer::create_reader` (lines 92–98): `last_sequence = 0`. -/
def ring_create_reader (_b : RingBufferState) : RingReader := ⟨0⟩

/-- The scan of `read_next`/`try_read_next` (lines 106–118, 131–141): up to
`len` pops; a chunk with `sequence = last_sequence + 1` is delivered, one
with a larger sequence is re-queued at the back, anything else (already
read) is discarded. -/
def scanChunks : Nat → List TerminalChunk → Nat →
    Option TerminalChunk × List TerminalChunk
  | 0, q, _ => (none, q)
  | _ + 1, [], _ => (none, [])
  | n + 1, c :: rest, last =>
    if c.sequence = last + 1 then (some c, rest)
    else if c.sequence > last then scanChunks n (rest ++ [c]) last
    else scanChunks n rest last

/-- `TerminalReader::try_read_next`; `read_next` runs the same scan and,
when it finds nothing, awaits notification and rescans. -/
def try_ring_read (b : RingBufferState) (r : RingReader) :
    Option TerminalChunk × RingBufferState × RingReader :=
  let s := scanChunks b.chunks.length b.chunks r.last_sequence
  match s.1 with
  | some c => (some c, { b with chunks := s.2 }, ⟨c.sequence⟩)
  | none => (none, { b with chunks := s.2 }, r)

/-- C10: on a fresh buffer the first write's chunk gets sequence 0, while a
fresh reader (`last_sequence = 0`) only accepts sequence 1 and discards
anything `≤ 0`; hence the first chunk is never delivered — the first read
after one write returns nothing (dropping chunk 0 from the queue), and after
a second write only the second chunk is delivered. -/
theorem first_chunk_never_delivered (d1 d2 : List Nat)
    (h1 : d1.length ≤ MAX_CHUNK_SIZE) (h2 : d2.length ≤ MAX_CHUNK_SIZE) :
    ringWrite RingBufferState.new d1 = .ok ⟨1, [⟨0, d1⟩]⟩ ∧
    (ring_create_reader RingBufferState.new).last_sequence = 0 ∧
    try_ring_read ⟨1, [⟨0, d1⟩]⟩ ⟨0⟩ = (none, ⟨1, []⟩, ⟨0⟩) ∧
    ringWrite ⟨1, [⟨0, d1⟩]⟩ d2 = .ok ⟨2, [⟨0, d1⟩, ⟨1, d2⟩]⟩ ∧
    try_ring_read ⟨2, [⟨0, d1⟩, ⟨1, d2⟩]⟩ ⟨0⟩ =
      (some ⟨1, d2⟩, ⟨2, []⟩, ⟨1⟩) := by
  have h1' : d1.length ≤ 65536 := h1
  have h2' : d2.length ≤ 65536 := h2
  refine ⟨?_, rfl, ?_, ?_, ?_⟩
  · rw [ringWrite, if_neg (by simp only [MAX_CHUNK_SIZE]; omega)]
    simp [pushDropOldest, CHUNK_QUEUE_CAP, RingBufferState.new]
  · simp [try_ring_read, scanChunks]
  · rw [ringWrite, if_neg (by simp only [MAX_CHUNK_SIZE]; omega)]
    simp [pushDropOldest, CHUNK_QUEUE_CAP]
  · simp [try_ring_read, scanChunks]

/-- Witness for `first_chunk_never_delivered` with writes `[1,2,3]`, `[4]`. -/
theorem first_chunk_never_delivered_witness :
    List.length [1, 2, 3] ≤ MAX_CHUNK_SIZE ∧ List.length [4] ≤ MAX_CHUNK_SIZE ∧
    try_ring_read ⟨2, [⟨0, [1, 2, 3]⟩, ⟨1, [4]⟩]⟩ ⟨0⟩ =
      (some ⟨1, [4]⟩, ⟨2, []⟩, ⟨1⟩) :=
  ⟨by decide, by decide,
   (first_chunk_never_delivered [1, 2, 3] [4] (by decide) (by decide)).2.2.2.2⟩

end Webmux
